import Mathlib

/-! Verification development for the preference-learning ranking engine of
the image-ranking application: the CART / random-forest worker
(`src/workers/forest`), the cosine-similarity scorer, the embedding
coordinator (`useEmbeddings`) and the ranking orchestrator (`imagesSorted`)
of `src/app/page-client.tsx`, shallowly embedded in Lean.

JavaScript numbers are modelled exactly: as rationals (`ℚ`) in the forest
engine, which only adds, multiplies and divides, and as reals (`ℝ`) in the
similarity scorer, whose cosine needs a square root.  Maps keyed by `File`
objects are modelled as association lists or as functions into `Option`;
the opaque `File` handles themselves are modelled as natural numbers. -/

namespace ImageRanking

/-! ### A stable sort

`Array.prototype.sort` with the numeric comparator `(a, b) => a - b` and
lodash's `sortBy` (used by the ranking orchestrator) are stable comparison
sorts.  For a total, transitive comparison every stable sort returns the
same list, so one stable insertion sort models both. -/

/-- Insert `a` into `l`, passing every element `b` with `r b a` (so a newly
inserted element lands after the elements already in place that compare
less-or-equal to it, which is what stability demands). -/
def insertEl (r : α → α → Prop) [DecidableRel r] (a : α) : List α → List α
  | [] => [a]
  | b :: l => if r b a then b :: insertEl r a l else a :: b :: l

/-- Stable insertion sort: fold the list from the left, inserting each
element into the already sorted prefix. -/
def stableSort (r : α → α → Prop) [DecidableRel r] (l : List α) : List α :=
  l.foldl (fun acc x => insertEl r x acc) []

theorem mem_insertEl (r : α → α → Prop) [DecidableRel r] (a x : α) :
    ∀ l : List α, x ∈ insertEl r a l ↔ x = a ∨ x ∈ l
  | [] => by simp [insertEl]
  | b :: l => by
    by_cases h : r b a
    · simp only [insertEl, if_pos h, List.mem_cons, mem_insertEl r a x l]
      tauto
    · simp only [insertEl, if_neg h, List.mem_cons]

theorem pairwise_insertEl {r : α → α → Prop} [DecidableRel r]
    (total : ∀ a b, r a b ∨ r b a) (trans : ∀ a b c, r a b → r b c → r a c)
    (a : α) : ∀ {l : List α}, l.Pairwise r → (insertEl r a l).Pairwise r
  | [], _ => by simp [insertEl]
  | b :: l, hp => by
    rcases List.pairwise_cons.1 hp with ⟨hb, hl⟩
    by_cases h : r b a
    · rw [insertEl, if_pos h]
      refine List.pairwise_cons.2 ⟨?_, pairwise_insertEl total trans a hl⟩
      intro x hx
      rcases (mem_insertEl r a x l).1 hx with rfl | hx
      · exact h
      · exact hb x hx
    · rw [insertEl, if_neg h]
      have hab : r a b := (total a b).resolve_right h
      refine List.pairwise_cons.2 ⟨?_, hp⟩
      intro x hx
      rcases List.mem_cons.1 hx with rfl | hx
      · exact hab
      · exact trans a b x hab (hb x hx)

theorem pairwise_stableSort {r : α → α → Prop} [DecidableRel r]
    (total : ∀ a b, r a b ∨ r b a) (trans : ∀ a b c, r a b → r b c → r a c)
    (l : List α) : (stableSort r l).Pairwise r := by
  suffices h : ∀ (l : List α) (acc : List α), acc.Pairwise r →
      (l.foldl (fun acc x => insertEl r x acc) acc).Pairwise r by
    exact h l [] List.Pairwise.nil
  intro l
  induction l with
  | nil => exact fun acc h => h
  | cons x l ih =>
    intro acc hacc
    exact ih _ (pairwise_insertEl total trans x hacc)

theorem mem_stableSort (r : α → α → Prop) [DecidableRel r] (x : α)
    (l : List α) : x ∈ stableSort r l ↔ x ∈ l := by
  suffices h : ∀ (l acc : List α),
      (x ∈ l.foldl (fun acc y => insertEl r y acc) acc ↔ x ∈ l ∨ x ∈ acc) by
    rw [stableSort, h l []]
    simp
  intro l
  induction l with
  | nil => simp
  | cons y l ih =>
    intro acc
    rw [List.foldl_cons, ih, mem_insertEl]
    simp only [List.mem_cons]
    tauto

theorem sublist_insertEl (r : α → α → Prop) [DecidableRel r] (a : α) :
    ∀ {s l : List α}, s.Sublist l → s.Sublist (insertEl r a l)
  | s, [], h => by simpa [insertEl] using h.trans (List.nil_sublist [a])
  | s, b :: l, h => by
    by_cases hba : r b a
    · rw [insertEl, if_pos hba]
      cases h with
      | cons _ h => exact (sublist_insertEl r a h).cons b
      | cons₂ _ h => exact (sublist_insertEl r a h).cons₂ b
    · rw [insertEl, if_neg hba]
      exact h.cons a

theorem pair_sublist_insertEl {r : α → α → Prop} [DecidableRel r]
    (trans : ∀ a b c, r a b → r b c → r a c) (a b : α) :
    ∀ {l : List α}, l.Pairwise r → r b a → b ∈ l →
      List.Sublist [b, a] (insertEl r a l)
  | c :: l, hp, hba, hb => by
    rcases List.pairwise_cons.1 hp with ⟨hc, hl⟩
    rcases List.mem_cons.1 hb with rfl | hb
    · rw [insertEl, if_pos hba]
      refine List.Sublist.cons₂ b ?_
      exact List.singleton_sublist.2 ((mem_insertEl r a a l).2 (Or.inl rfl))
    · by_cases hca : r c a
      · rw [insertEl, if_pos hca]
        exact (pair_sublist_insertEl trans a b hl hba hb).cons c
      · exact absurd (trans c b a (hc b hb) hba) hca

theorem stableSort_append_singleton (r : α → α → Prop) [DecidableRel r]
    (l : List α) (a : α) :
    stableSort r (l ++ [a]) = insertEl r a (stableSort r l) := by
  simp [stableSort, List.foldl_append]

/-- Stability of `stableSort`: two elements of the input whose relative
order already agrees with the comparison keep their relative order. -/
theorem stableSort_pair {r : α → α → Prop} [DecidableRel r]
    (total : ∀ a b, r a b ∨ r b a) (trans : ∀ a b c, r a b → r b c → r a c)
    {x y : α} (l : List α) (h : List.Sublist [x, y] l) (hxy : r x y) :
    List.Sublist [x, y] (stableSort r l) := by
  induction l using List.reverseRecOn with
  | nil => exact absurd (h.length_le) (by simp)
  | append_singleton l a ih =>
    rw [stableSort_append_singleton]
    rcases List.sublist_append_iff.1 h with ⟨l₁, l₂, heq, h₁, h₂⟩
    rcases l₁ with _ | ⟨u, _ | ⟨v, _ | ⟨w, t⟩⟩⟩
    · rw [List.nil_append] at heq
      subst heq
      exact absurd h₂.length_le (by simp)
    · rw [List.cons_append, List.nil_append] at heq
      injection heq with h1 h2
      subst h1
      subst h2
      have hya : y = a := by
        cases h₂ with
        | cons _ hs => exact absurd hs.length_le (by simp)
        | cons₂ _ hs => rfl
      subst hya
      exact pair_sublist_insertEl trans y x
        (pairwise_stableSort total trans l) hxy
        ((mem_stableSort r x l).2 (List.singleton_sublist.1 h₁))
    · rw [List.cons_append, List.cons_append, List.nil_append] at heq
      injection heq with h1 h2
      injection h2 with h2 h3
      subst h1
      subst h2
      subst h3
      exact sublist_insertEl r a (ih h₁)
    · exfalso
      have hlen := congrArg List.length heq
      simp only [List.length_cons, List.length_append, List.length_nil] at hlen
      omega

/-! ### Forest engine: Gini impurity (`giniImpurity` in `src/workers/forest`)

The worker counts each distinct label's occurrences in a counts object and
returns `1 - Σ (count / total)²` over those counts. -/

/-- `giniImpurity(labels)`: one term per distinct label of the list. -/
def giniImpurity (labels : List ℤ) : ℚ :=
  1 - (labels.dedup.map
    (fun c => ((labels.count c : ℚ) / labels.length) ^ 2)).sum

theorem nodup_all_eq {α : Type*} {l : List α} {c : α} (hn : l.Nodup)
    (hm : ∀ x ∈ l, x = c) (hc : c ∈ l) : l = [c] := by
  cases l with
  | nil => cases hc
  | cons x t =>
    have hx : x = c := hm x (List.mem_cons_self x t)
    subst hx
    rcases t with _ | ⟨y, t⟩
    · rfl
    · exfalso
      have hy : y = x := (hm y (by simp)).trans (hm x (by simp)).symm
      exact (List.pairwise_cons.1 hn).1 y (by simp) hy.symm

theorem nodup_pair {α : Type*} {l : List α} {a b : α} (hab : a ≠ b)
    (hn : l.Nodup) (hm : ∀ x ∈ l, x = a ∨ x = b) (ha : a ∈ l) (hb : b ∈ l) :
    l = [a, b] ∨ l = [b, a] := by
  cases l with
  | nil => cases ha
  | cons x t =>
    rcases List.pairwise_cons.1 hn with ⟨hxt, hnt⟩
    rcases hm x (List.mem_cons_self x t) with rfl | rfl
    · left
      have hbt : b ∈ t := by
        rcases List.mem_cons.1 hb with h | h
        · exact absurd h.symm hab
        · exact h
      have htb : ∀ y ∈ t, y = b := by
        intro y hy
        rcases hm y (List.mem_cons.2 (Or.inr hy)) with rfl | rfl
        · exact absurd rfl (hxt y hy)
        · rfl
      rw [nodup_all_eq hnt htb hbt]
    · right
      have hat : a ∈ t := by
        rcases List.mem_cons.1 ha with h | h
        · exact absurd h hab
        · exact h
      have hta : ∀ y ∈ t, y = a := by
        intro y hy
        rcases hm y (List.mem_cons.2 (Or.inr hy)) with rfl | rfl
        · rfl
        · exact absurd rfl (hxt y hy)
      rw [nodup_all_eq hnt hta hat]

/-- C8: the Gini impurity of a non-empty label multiset of size `n` is
`1 − Σ_c (count(c)/n)²` over the distinct labels; it is `0` when all labels
are one class, and `1/2` for a set split exactly evenly between two
classes. -/
theorem giniImpurity_spec :
    (∀ labels : List ℤ, giniImpurity labels =
      1 - ∑ c ∈ labels.toFinset, ((labels.count c : ℚ) / labels.length) ^ 2)
    ∧ (∀ (labels : List ℤ) (c : ℤ), labels ≠ [] → (∀ x ∈ labels, x = c) →
        giniImpurity labels = 0)
    ∧ (∀ (labels : List ℤ) (a b : ℤ) (k : ℕ), a ≠ b → k ≠ 0 →
        labels.length = 2 * k → labels.count a = k → labels.count b = k →
        (∀ x ∈ labels, x = a ∨ x = b) → giniImpurity labels = 1 / 2) := by
  refine ⟨?_, ?_, ?_⟩
  · intro labels
    have hfin : labels.dedup.toFinset = labels.toFinset := by
      ext a
      simp [List.mem_toFinset, List.mem_dedup]
    rw [giniImpurity, ← hfin, List.sum_toFinset _ (List.nodup_dedup labels)]
  · intro labels c hne hall
    have hc : c ∈ labels := by
      cases labels with
      | nil => exact absurd rfl hne
      | cons x t => exact (hall x (by simp)) ▸ List.mem_cons_self x t
    have hd : labels.dedup = [c] :=
      nodup_all_eq (List.nodup_dedup labels)
        (fun x hx => hall x (List.mem_dedup.1 hx)) (List.mem_dedup.2 hc)
    have hcount : labels.count c = labels.length :=
      List.count_eq_length.2 (fun b hb => (hall b hb).symm)
    have hlen : (labels.length : ℚ) ≠ 0 := by
      simpa using hne
    rw [giniImpurity, hd]
    simp [hcount, div_self hlen]
  · intro labels a b k hab hk hlen hca hcb hall
    have ha : a ∈ labels := by
      rw [← List.count_pos_iff, hca]
      omega
    have hb : b ∈ labels := by
      rw [← List.count_pos_iff, hcb]
      omega
    have hd : labels.dedup = [a, b] ∨ labels.dedup = [b, a] :=
      nodup_pair hab (List.nodup_dedup labels)
        (fun x hx => hall x (List.mem_dedup.1 hx))
        (List.mem_dedup.2 ha) (List.mem_dedup.2 hb)
    have hkq : ((k : ℚ)) ≠ 0 := Nat.cast_ne_zero.2 hk
    have hterm : ((k : ℚ) / (2 * k)) ^ 2 = 1 / 4 := by
      rw [div_pow]
      rw [show ((2 : ℚ) * k) ^ 2 = 4 * k ^ 2 by ring]
      rw [sq]
      field_simp
      ring
    rcases hd with hd | hd <;>
      · rw [giniImpurity, hd]
        simp only [List.map_cons, List.map_nil, List.sum_cons, List.sum_nil,
          hca, hcb, hlen]
        push_cast
        rw [hterm]
        ring

/-- Witness for C8 at concrete inputs: a one-class list and a balanced
two-class list. -/
theorem giniImpurity_spec_witness :
    giniImpurity [5, 5, 5] = 0 ∧ giniImpurity [0, 1, 0, 1] = 1 / 2 :=
  ⟨giniImpurity_spec.2.1 [5, 5, 5] 5 (by decide) (by decide),
   giniImpurity_spec.2.2 [0, 1, 0, 1] 0 1 2 (by decide) (by decide)
     (by decide) (by decide) (by decide) (by decide)⟩

/-! ### Forest engine: best-split search (`findBestSplit`)

`findBestSplit({data, featureIndices})` sorts the observed values of each
candidate feature, takes the midpoints of adjacent distinct values as
thresholds, partitions the data into `≤ threshold` / `> threshold` and
keeps the candidate with strictly smallest weighted Gini impurity,
starting from `bestGini = Infinity`, `bestSplit = null`. -/

/-- One training point: `{features: number[], label: number}`. -/
structure DataPoint where
  features : List ℚ
  label : ℤ
deriving DecidableEq

/-- `d.features[f]` (the worker only ever indexes in range). -/
def featureValue (d : DataPoint) (f : ℕ) : ℚ :=
  d.features.getD f 0

/-- The observed values of feature `f`, sorted ascending and with
duplicates removed: `[...new Set(values.sort((a, b) => a - b))]`. -/
def sortedUnique (data : List DataPoint) (f : ℕ) : List ℚ :=
  (stableSort (· ≤ ·) (data.map (fun d => featureValue d f))).dedup

/-- The candidate thresholds of feature `f`: midpoints of each pair of
adjacent sorted distinct values. -/
def thresholdsFor (data : List DataPoint) (f : ℕ) : List ℚ :=
  ((sortedUnique data f).zip (sortedUnique data f).tail).map
    (fun p => (p.1 + p.2) / 2)

/-- The split record `{featureIndex, threshold, left, right}`. -/
structure Split where
  featureIndex : ℕ
  threshold : ℚ
  left : List DataPoint
  right : List DataPoint
deriving DecidableEq

/-- Partition `data` at threshold `t` of feature `f`: `left` keeps the
points with value `≤ t`, `right` those with value `> t`. -/
def makeSplit (data : List DataPoint) (f : ℕ) (t : ℚ) : Split :=
  ⟨f, t, data.filter (fun d => featureValue d f ≤ t),
    data.filter (fun d => t < featureValue d f)⟩

/-- `(|left|/|data|)·Gini(left) + (|right|/|data|)·Gini(right)`. -/
def weightedGini (data : List DataPoint) (s : Split) : ℚ :=
  ((s.left.length : ℚ) / data.length) * giniImpurity (s.left.map (·.label))
    + ((s.right.length : ℚ) / data.length)
      * giniImpurity (s.right.map (·.label))

/-- All `(feature, threshold)` pairs the nested loops of `findBestSplit`
visit, in visit order. -/
def allCandidates (data : List DataPoint) (featureIndices : List ℕ) :
    List (ℕ × ℚ) :=
  featureIndices.flatMap (fun f => (thresholdsFor data f).map (fun t => (f, t)))

/-- One iteration of the loop body: replace the best candidate so far when
the new weighted Gini is strictly smaller (`gini < bestGini`, with
`bestGini` starting at `Infinity`, modelled by `none`). -/
def chooseBetter (data : List DataPoint) (best : Option (ℚ × Split))
    (c : ℕ × ℚ) : Option (ℚ × Split) :=
  let s := makeSplit data c.1 c.2
  let g := weightedGini data s
  match best with
  | none => some (g, s)
  | some b => if g < b.1 then some (g, s) else some b

/-- `findBestSplit({data, featureIndices})`: `none` models the `null`
result. -/
def findBestSplit (data : List DataPoint) (featureIndices : List ℕ) :
    Option Split :=
  ((allCandidates data featureIndices).foldl (chooseBetter data) none).map
    (fun b => b.2)

theorem chooseBetter_none (data : List DataPoint) (c : ℕ × ℚ) :
    chooseBetter data none c =
      some (weightedGini data (makeSplit data c.1 c.2),
        makeSplit data c.1 c.2) := rfl

theorem chooseBetter_some (data : List DataPoint) (c : ℕ × ℚ) (bg : ℚ)
    (bs : Split) :
    chooseBetter data (some (bg, bs)) c =
      if weightedGini data (makeSplit data c.1 c.2) < bg
      then some (weightedGini data (makeSplit data c.1 c.2),
        makeSplit data c.1 c.2)
      else some (bg, bs) := rfl

theorem chooseBetter_ne_none (data : List DataPoint)
    (acc : Option (ℚ × Split)) (c : ℕ × ℚ) :
    chooseBetter data acc c ≠ none := by
  cases acc with
  | none => simp [chooseBetter_none]
  | some b =>
    obtain ⟨bg, bs⟩ := b
    rw [chooseBetter_some]
    split <;> simp

/-- Loop invariant of `findBestSplit`: the accumulator always carries a
candidate's weighted Gini together with its split, the result is `none`
exactly when nothing was ever proposed, and the final pair's Gini is a
lower bound for the accumulator and for every candidate processed. -/
theorem foldl_chooseBetter_spec (data : List DataPoint) :
    ∀ (cs : List (ℕ × ℚ)) (acc : Option (ℚ × Split)),
      (∀ g s, acc = some (g, s) → g = weightedGini data s) →
      (cs.foldl (chooseBetter data) acc = none ↔ acc = none ∧ cs = [])
      ∧ (∀ g s, cs.foldl (chooseBetter data) acc = some (g, s) →
          g = weightedGini data s
          ∧ (acc = some (g, s) ∨ ∃ c ∈ cs, s = makeSplit data c.1 c.2)
          ∧ (∀ g0 s0, acc = some (g0, s0) → g ≤ g0)
          ∧ (∀ c ∈ cs, g ≤ weightedGini data (makeSplit data c.1 c.2))) := by
  intro cs
  induction cs with
  | nil =>
    intro acc hacc
    constructor
    · simp
    · intro g s hres
      rw [List.foldl_nil] at hres
      refine ⟨hacc g s hres, Or.inl hres, ?_, by simp⟩
      intro g0 s0 h0
      rw [hres] at h0
      simp only [Option.some.injEq, Prod.mk.injEq] at h0
      exact le_of_eq h0.1
  | cons c cs ih =>
    intro acc hacc
    have hacc' : ∀ g s, chooseBetter data acc c = some (g, s) →
        g = weightedGini data s := by
      intro g s h
      cases acc with
      | none =>
        rw [chooseBetter_none] at h
        simp only [Option.some.injEq, Prod.mk.injEq] at h
        rw [← h.1, ← h.2]
      | some b =>
        obtain ⟨bg, bs⟩ := b
        rw [chooseBetter_some] at h
        split at h
        · simp only [Option.some.injEq, Prod.mk.injEq] at h
          rw [← h.1, ← h.2]
        · simp only [Option.some.injEq, Prod.mk.injEq] at h
          rw [← h.1, ← h.2]
          exact hacc bg bs rfl
    obtain ⟨ih1, ih2⟩ := ih (chooseBetter data acc c) hacc'
    rw [List.foldl_cons]
    constructor
    · rw [ih1]
      simp [chooseBetter_ne_none data acc c]
    · intro g s hres
      obtain ⟨hg, horig, hboundacc, hboundcs⟩ := ih2 g s hres
      refine ⟨hg, ?_, ?_, ?_⟩
      · rcases horig with hacc'eq | ⟨c', hc', hs⟩
        · cases acc with
          | none =>
            rw [chooseBetter_none] at hacc'eq
            simp only [Option.some.injEq, Prod.mk.injEq] at hacc'eq
            exact Or.inr ⟨c, List.mem_cons_self c cs, hacc'eq.2.symm⟩
          | some b =>
            obtain ⟨bg, bs⟩ := b
            rw [chooseBetter_some] at hacc'eq
            split at hacc'eq
            · simp only [Option.some.injEq, Prod.mk.injEq] at hacc'eq
              exact Or.inr ⟨c, List.mem_cons_self c cs, hacc'eq.2.symm⟩
            · exact Or.inl hacc'eq
        · exact Or.inr ⟨c', List.mem_cons.2 (Or.inr hc'), hs⟩
      · intro g0 s0 h0
        subst h0
        rw [chooseBetter_some] at hboundacc
        split at hboundacc
        · next hlt =>
          exact le_of_lt (lt_of_le_of_lt (hboundacc _ _ rfl) hlt)
        · exact hboundacc g0 s0 rfl
      · intro c' hc'
        rcases List.mem_cons.1 hc' with rfl | hc'
        · cases acc with
          | none =>
            have := hboundacc _ _ (chooseBetter_none data c')
            exact this
          | some b =>
            obtain ⟨bg, bs⟩ := b
            rw [chooseBetter_some] at hboundacc
            split at hboundacc
            · exact hboundacc _ _ rfl
            · next hnlt =>
              exact le_trans (hboundacc bg bs rfl) (not_lt.1 hnlt)
        · exact hboundcs c' hc'

theorem mem_zip_tail {α : Type*} :
    ∀ {l : List α} {p : α × α}, p ∈ l.zip l.tail → p.1 ∈ l ∧ p.2 ∈ l
  | [], p, h => by simp at h
  | [x], p, h => by simp at h
  | x :: y :: t, p, h => by
    simp only [List.tail_cons, List.zip_cons_cons] at h
    rcases List.mem_cons.1 h with rfl | h
    · exact ⟨by simp, by simp⟩
    · have hm := mem_zip_tail (l := y :: t) (p := p)
        (by simpa using h)
      exact ⟨List.mem_cons.2 (Or.inr hm.1), List.mem_cons.2 (Or.inr hm.2)⟩

theorem pairwise_zip_tail {α : Type*} {R : α → α → Prop} :
    ∀ {l : List α} {p : α × α}, l.Pairwise R → p ∈ l.zip l.tail → R p.1 p.2
  | [], p, _, h => by simp at h
  | [x], p, _, h => by simp at h
  | x :: y :: t, p, hp, h => by
    simp only [List.tail_cons, List.zip_cons_cons] at h
    rcases List.mem_cons.1 h with rfl | h
    · exact List.rel_of_pairwise_cons hp (by simp)
    · exact pairwise_zip_tail (List.pairwise_cons.1 hp).2 (by simpa using h)

/-- The sorted distinct observed values of a feature are strictly
increasing. -/
theorem sortedUnique_pairwise_lt (data : List DataPoint) (f : ℕ) :
    (sortedUnique data f).Pairwise (· < ·) := by
  have hle : (stableSort (· ≤ ·)
      (data.map (fun d => featureValue d f))).Pairwise (· ≤ ·) :=
    pairwise_stableSort (fun a b => le_total a b)
      (fun a b c => le_trans) _
  have hle2 : (sortedUnique data f).Pairwise (· ≤ ·) :=
    List.Pairwise.sublist (List.dedup_sublist _) hle
  have hne : (sortedUnique data f).Pairwise (· ≠ ·) :=
    List.nodup_dedup _
  exact (hle2.and hne).imp (fun h => lt_of_le_of_ne h.1 h.2)

/-- Every member of `sortedUnique` is an observed feature value. -/
theorem mem_sortedUnique {data : List DataPoint} {f : ℕ} {a : ℚ}
    (h : a ∈ sortedUnique data f) : ∃ d ∈ data, featureValue d f = a := by
  have h2 : a ∈ stableSort (· ≤ ·)
      (data.map (fun d => featureValue d f)) := List.mem_dedup.1 h
  have h3 : a ∈ data.map (fun d => featureValue d f) :=
    (mem_stableSort _ _ _).1 h2
  simpa using h3

/-- A candidate threshold is the midpoint of two observed values `a < b`
of its feature. -/
theorem thresholdsFor_spec {data : List DataPoint} {f : ℕ} {t : ℚ}
    (h : t ∈ thresholdsFor data f) :
    ∃ a b, t = (a + b) / 2 ∧ a < b
      ∧ (∃ d ∈ data, featureValue d f = a)
      ∧ (∃ d ∈ data, featureValue d f = b) := by
  rw [thresholdsFor, List.mem_map] at h
  obtain ⟨p, hp, ht⟩ := h
  refine ⟨p.1, p.2, ht.symm, ?_, ?_, ?_⟩
  · exact pairwise_zip_tail (sortedUnique_pairwise_lt data f) hp
  · exact mem_sortedUnique (mem_zip_tail hp).1
  · exact mem_sortedUnique (mem_zip_tail hp).2

/-- A split at a candidate threshold has a point on each side. -/
theorem makeSplit_nonempty {data : List DataPoint} {f : ℕ} {t : ℚ}
    (h : t ∈ thresholdsFor data f) :
    (makeSplit data f t).left ≠ [] ∧ (makeSplit data f t).right ≠ [] := by
  obtain ⟨a, b, rfl, hab, ⟨da, hda, hva⟩, ⟨db, hdb, hvb⟩⟩ :=
    thresholdsFor_spec h
  constructor
  · refine List.ne_nil_of_mem (a := da) ?_
    rw [makeSplit]
    simp only [List.mem_filter, decide_eq_true_eq]
    exact ⟨hda, by rw [hva]; linarith⟩
  · refine List.ne_nil_of_mem (a := db) ?_
    rw [makeSplit]
    simp only [List.mem_filter, decide_eq_true_eq]
    exact ⟨hdb, by rw [hvb]; linarith⟩

/-- Characterisation of a successful `findBestSplit`: the returned split
comes from a candidate feature and threshold and minimises the weighted
Gini impurity over all candidates. -/
theorem findBestSplit_some_spec {data : List DataPoint}
    {featureIndices : List ℕ} {s : Split}
    (h : findBestSplit data featureIndices = some s) :
    ∃ f ∈ featureIndices, ∃ t ∈ thresholdsFor data f,
      s = makeSplit data f t
      ∧ ∀ f2 ∈ featureIndices, ∀ t2 ∈ thresholdsFor data f2,
          weightedGini data s ≤ weightedGini data (makeSplit data f2 t2) := by
  rw [findBestSplit, Option.map_eq_some'] at h
  obtain ⟨⟨g, s0⟩, hfold, hs⟩ := h
  subst hs
  obtain ⟨-, hsome⟩ := foldl_chooseBetter_spec data
    (allCandidates data featureIndices) none (by simp)
  obtain ⟨hg, horig, -, hbound⟩ := hsome g s0 hfold
  rcases horig with hcon | ⟨c, hc, hs⟩
  · cases hcon
  · rw [allCandidates, List.mem_flatMap] at hc
    obtain ⟨f, hf, hcf⟩ := hc
    rw [List.mem_map] at hcf
    obtain ⟨t, ht, hct⟩ := hcf
    subst hct
    refine ⟨f, hf, t, ht, hs, ?_⟩
    intro f2 hf2 t2 ht2
    rw [← hg]
    exact hbound (f2, t2)
      (by
        rw [allCandidates, List.mem_flatMap]
        exact ⟨f2, hf2, List.mem_map.2 ⟨t2, ht2, rfl⟩⟩)

theorem zip_tail_eq_nil_of_short {α : Type*} {l : List α}
    (h : l.length < 2) : l.zip l.tail = [] := by
  rcases l with _ | ⟨x, _ | ⟨y, t⟩⟩
  · rfl
  · rfl
  · exact absurd h (by simp)

/-- C6: best-split search considers, for each candidate feature, the
midpoints of each pair of adjacent sorted distinct observed values as
thresholds, partitions the data into points `≤ threshold` (left) and
`> threshold` (right), returns a split minimising the weighted Gini
impurity `(|left|/|data|)·Gini(left) + (|right|/|data|)·Gini(right)` over
all candidates, and returns no split when every candidate feature has
fewer than 2 distinct observed values. -/
theorem findBestSplit_minimises_weightedGini (data : List DataPoint)
    (featureIndices : List ℕ) :
    ((∀ f ∈ featureIndices, (sortedUnique data f).length < 2) →
      findBestSplit data featureIndices = none)
    ∧ ∀ s, findBestSplit data featureIndices = some s →
        ∃ f ∈ featureIndices, ∃ t ∈ thresholdsFor data f,
          s = makeSplit data f t
          ∧ ∀ f2 ∈ featureIndices, ∀ t2 ∈ thresholdsFor data f2,
              weightedGini data s
                ≤ weightedGini data (makeSplit data f2 t2) := by
  constructor
  · intro hshort
    have hnil : allCandidates data featureIndices = [] := by
      rw [allCandidates]
      refine List.flatMap_eq_nil_iff.2 ?_
      intro f hf
      rw [thresholdsFor, zip_tail_eq_nil_of_short (hshort f hf)]
      rfl
    rw [findBestSplit, hnil]
    rfl
  · intro s h
    exact findBestSplit_some_spec h

unseal Rat.mul Rat.inv Rat.add Rat.sub in
/-- Witness for C6: a two-point dataset with a constant feature yields no
split; a two-point dataset with distinct values yields the (unique)
midpoint split, which is minimal. -/
theorem findBestSplit_minimises_weightedGini_witness :
    findBestSplit [⟨[1], 0⟩, ⟨[1], 1⟩] [0] = none
    ∧ ∃ f ∈ [0], ∃ t ∈ thresholdsFor [⟨[0], 0⟩, ⟨[1], 1⟩] f,
        Split.mk 0 (1 / 2) [⟨[0], 0⟩] [⟨[1], 1⟩]
            = makeSplit [⟨[0], 0⟩, ⟨[1], 1⟩] f t
          ∧ ∀ f2 ∈ [0], ∀ t2 ∈ thresholdsFor [⟨[0], 0⟩, ⟨[1], 1⟩] f2,
              weightedGini [⟨[0], 0⟩, ⟨[1], 1⟩]
                  (Split.mk 0 (1 / 2) [⟨[0], 0⟩] [⟨[1], 1⟩])
                ≤ weightedGini [⟨[0], 0⟩, ⟨[1], 1⟩]
                  (makeSplit [⟨[0], 0⟩, ⟨[1], 1⟩] f2 t2) :=
  ⟨(findBestSplit_minimises_weightedGini [⟨[1], 0⟩, ⟨[1], 1⟩] [0]).1
      (by decide),
   (findBestSplit_minimises_weightedGini [⟨[0], 0⟩, ⟨[1], 1⟩] [0]).2
      (Split.mk 0 (1 / 2) [⟨[0], 0⟩] [⟨[1], 1⟩]) (by decide)⟩

/-- A successful split is a complementary filter pair: non-empty on both
sides and strictly smaller than the dataset.  Shared backbone of the
partition claim and of the termination of tree induction. -/
theorem findBestSplit_facts {data : List DataPoint}
    {featureIndices : List ℕ} {s : Split}
    (h : findBestSplit data featureIndices = some s) :
    s.left = data.filter (fun d => featureValue d s.featureIndex ≤ s.threshold)
    ∧ s.right
        = data.filter (fun d => s.threshold < featureValue d s.featureIndex)
    ∧ (s.left ++ s.right).Perm data
    ∧ s.left ≠ [] ∧ s.right ≠ []
    ∧ s.left.length < data.length ∧ s.right.length < data.length := by
  obtain ⟨f, hf, t, ht, rfl, -⟩ := findBestSplit_some_spec h
  obtain ⟨hl, hr⟩ := makeSplit_nonempty ht
  have hfun : (fun d => decide (t < featureValue d f))
      = (fun d => !(decide (featureValue d f ≤ t))) := by
    funext d
    rw [← decide_not]
    simp [not_le]
  have hperm : ((makeSplit data f t).left ++ (makeSplit data f t).right).Perm
      data := by
    rw [makeSplit]
    simp only []
    rw [show (data.filter fun d => decide (t < featureValue d f))
        = data.filter (fun d => !(decide (featureValue d f ≤ t))) from by
      rw [hfun]]
    exact List.filter_append_perm _ data
  have hlen := hperm.length_eq
  rw [List.length_append] at hlen
  have hllen : 0 < (makeSplit data f t).left.length := List.length_pos.2 hl
  have hrlen : 0 < (makeSplit data f t).right.length := List.length_pos.2 hr
  exact ⟨rfl, rfl, hperm, hl, hr, by omega, by omega⟩

/-- C10: whenever best-split search returns a split, left is exactly the
points of the dataset whose value at the returned feature index is
`≤ threshold`, right exactly those `>` it, the two parts together are a
permutation of the dataset, both parts are non-empty, and each child is
strictly smaller than its parent. -/
theorem findBestSplit_partitions (data : List DataPoint)
    (featureIndices : List ℕ) (s : Split)
    (h : findBestSplit data featureIndices = some s) :
    s.left = data.filter (fun d => featureValue d s.featureIndex ≤ s.threshold)
    ∧ s.right
        = data.filter (fun d => s.threshold < featureValue d s.featureIndex)
    ∧ (s.left ++ s.right).Perm data
    ∧ s.left ≠ [] ∧ s.right ≠ []
    ∧ s.left.length < data.length ∧ s.right.length < data.length :=
  findBestSplit_facts h

unseal Rat.mul Rat.inv Rat.add Rat.sub in
/-- Witness for C10 at a concrete two-point dataset. -/
theorem findBestSplit_partitions_witness :
    [DataPoint.mk [0] 0] ≠ [] ∧ [DataPoint.mk [1] 1] ≠ []
    ∧ ([DataPoint.mk [0] 0] ++ [DataPoint.mk [1] 1]).Perm
        [DataPoint.mk [0] 0, DataPoint.mk [1] 1] := by
  have h := findBestSplit_partitions [⟨[0], 0⟩, ⟨[1], 1⟩] [0]
    (Split.mk 0 (1 / 2) [⟨[0], 0⟩] [⟨[1], 1⟩]) (by decide)
  exact ⟨h.2.2.2.1, h.2.2.2.2.1, h.2.2.1⟩

theorem findBestSplit_children_lt {data : List DataPoint}
    {featureIndices : List ℕ} {s : Split}
    (h : findBestSplit data featureIndices = some s) :
    s.left.length < data.length ∧ s.right.length < data.length :=
  ⟨(findBestSplit_facts h).2.2.2.2.2.1, (findBestSplit_facts h).2.2.2.2.2.2⟩

/-! ### Forest engine: tree induction (`createDecisionTree` / `buildTree`)

The worker's tree nodes are plain objects with either a `distribution`
field (leaf) or `featureIndex`/`threshold`/`left`/`right` fields; a tagged
variant models them.  `buildTree` makes a leaf when the depth limit is
reached, the node is too small (`data.length < minSamplesSplit`), the
labels are pure, or no valid split exists; otherwise it recurses into the
two sides of the best split.  The random feature subset
`featureIndices.sort(() => 0.5 - Math.random()).slice(0, numFeatures)` is
modelled by an arbitrary selection oracle `sel data depth`, so every
theorem below holds for every outcome of the shuffle. -/

/-- A decision-tree node. -/
inductive TreeNode where
  | leaf (distribution : List (ℤ × ℚ))
  | node (featureIndex : ℕ) (threshold : ℚ) (left right : TreeNode)
deriving DecidableEq

/-- A leaf's distribution: per-label frequencies, `count / data.length`
for each distinct label. -/
def distributionOf (data : List DataPoint) : List (ℤ × ℚ) :=
  (data.map (fun d => d.label)).dedup.map
    (fun c => (c, ((data.map (fun d => d.label)).count c : ℚ) / data.length))

/-- `buildTree(data, depth)` of `createDecisionTree`. -/
def buildTree (sel : List DataPoint → ℕ → List ℕ)
    (maxDepth minSamplesSplit : ℕ) (data : List DataPoint) (depth : ℕ) :
    TreeNode :=
  if depth = maxDepth ∨ data.length < minSamplesSplit
      ∨ (data.map (fun d => d.label)).dedup.length = 1 then
    .leaf (distributionOf data)
  else
    match h : findBestSplit data (sel data depth) with
    | none => .leaf (distributionOf data)
    | some s =>
      .node s.featureIndex s.threshold
        (buildTree sel maxDepth minSamplesSplit s.left (depth + 1))
        (buildTree sel maxDepth minSamplesSplit s.right (depth + 1))
termination_by data.length
decreasing_by
  · exact (findBestSplit_children_lt h).1
  · exact (findBestSplit_children_lt h).2

/-- `predictProbaAll(features)`: descend to a leaf and return its
distribution. -/
def predictProbaAll : TreeNode → List ℚ → List (ℤ × ℚ)
  | .leaf dist, _ => dist
  | .node f t l r, features =>
    if features.getD f 0 ≤ t then predictProbaAll l features
    else predictProbaAll r features

/-- Every leaf distribution of the tree sums to 1. -/
def LeavesSumOne : TreeNode → Prop
  | .leaf dist => (dist.map (fun p => p.2)).sum = 1
  | .node _ _ l r => LeavesSumOne l ∧ LeavesSumOne r

theorem list_sum_map_div {α : Type*} (l : List α) (f : α → ℚ) (n : ℚ) :
    (l.map (fun x => f x / n)).sum = (l.map f).sum / n := by
  induction l with
  | nil => simp
  | cons x t ih => simp [ih, add_div]

theorem sum_counts_cast (labels : List ℤ) :
    (labels.dedup.map (fun c => (labels.count c : ℚ))).sum = labels.length := by
  have h := List.sum_map_count_dedup_eq_length labels
  have h2 : labels.dedup.map (fun c => (labels.count c : ℚ))
      = (labels.dedup.map (fun c => labels.count c)).map
        (fun n : ℕ => (n : ℚ)) := by
    rw [List.map_map]
    rfl
  rw [h2, ← Nat.cast_list_sum]
  exact_mod_cast congrArg (fun n : ℕ => (n : ℚ)) h

/-- The leaf distribution of a non-empty dataset sums to 1. -/
theorem distributionOf_sum {data : List DataPoint} (h : data ≠ []) :
    ((distributionOf data).map (fun p => p.2)).sum = 1 := by
  have hq : ((data.length : ℚ)) ≠ 0 := by
    have hz : data.length ≠ 0 := by simpa [List.length_eq_zero] using h
    exact_mod_cast hz
  rw [distributionOf, List.map_map]
  have h2 : ((fun p : ℤ × ℚ => p.2) ∘ fun c =>
      (c, ((data.map (fun d => d.label)).count c : ℚ) / data.length))
      = fun c => ((data.map (fun d => d.label)).count c : ℚ) / data.length :=
    rfl
  rw [h2, list_sum_map_div, sum_counts_cast, List.length_map]
  exact div_self hq

theorem predictProbaAll_sum {t : TreeNode} (h : LeavesSumOne t)
    (features : List ℚ) :
    ((predictProbaAll t features).map (fun p => p.2)).sum = 1 := by
  induction t with
  | leaf dist => simpa [predictProbaAll, LeavesSumOne] using h
  | node f th l r ihl ihr =>
    simp only [LeavesSumOne] at h
    rw [predictProbaAll]
    split
    · exact ihl h.1
    · exact ihr h.2

theorem leavesSumOne_aux (sel : List DataPoint → ℕ → List ℕ)
    (maxDepth minSamplesSplit : ℕ) :
    ∀ (n : ℕ) (data : List DataPoint), data.length ≤ n → data ≠ [] →
      ∀ depth, LeavesSumOne (buildTree sel maxDepth minSamplesSplit data depth)
  | 0, data, hle, hne, _ => by
    cases data with
    | nil => exact absurd rfl hne
    | cons x t => simp at hle
  | n + 1, data, hle, hne, depth => by
    rw [buildTree.eq_def]
    split
    · exact distributionOf_sum hne
    · split
      · exact distributionOf_sum hne
      · next s heq =>
        obtain ⟨f, hf, t, ht, rfl, -⟩ := findBestSplit_some_spec heq
        have hlt := findBestSplit_children_lt heq
        have hne2 := makeSplit_nonempty ht
        refine ⟨?_, ?_⟩
        · exact leavesSumOne_aux sel maxDepth minSamplesSplit n _
            (by omega) hne2.1 (depth + 1)
        · exact leavesSumOne_aux sel maxDepth minSamplesSplit n _
            (by omega) hne2.2 (depth + 1)

/-- C7: every tree built by tree induction on a non-empty dataset has
every leaf's class distribution summing to 1, and therefore
`predictProbaAll` returns a distribution summing to 1 across observed
classes for any feature vector.  (Over exact rationals the floating
tolerance of the claim is not needed.) -/
theorem buildTree_leaves_sum_one (sel : List DataPoint → ℕ → List ℕ)
    (maxDepth minSamplesSplit : ℕ) (data : List DataPoint) (depth : ℕ)
    (h : data ≠ []) :
    LeavesSumOne (buildTree sel maxDepth minSamplesSplit data depth)
    ∧ ∀ features : List ℚ,
        ((predictProbaAll (buildTree sel maxDepth minSamplesSplit data depth)
          features).map (fun p => p.2)).sum = 1 := by
  have hl := leavesSumOne_aux sel maxDepth minSamplesSplit data.length data
    le_rfl h depth
  exact ⟨hl, fun features => predictProbaAll_sum hl features⟩

/-- Witness for C7: a one-point dataset. -/
theorem buildTree_leaves_sum_one_witness :
    LeavesSumOne (buildTree (fun _ _ => []) 0 0 [DataPoint.mk [0] 0] 0)
    ∧ ∀ features : List ℚ,
        ((predictProbaAll (buildTree (fun _ _ => []) 0 0
          [DataPoint.mk [0] 0] 0) features).map (fun p => p.2)).sum = 1 :=
  buildTree_leaves_sum_one (fun _ _ => []) 0 0 [DataPoint.mk [0] 0] 0
    (by decide)

/-! ### Forest engine: prediction and the worker boundary

`tree.predictProba` walks to a leaf and reads `distribution[className] || 0`;
the forest averages the trees.  The worker (`src/workers/forest`) keeps a
module-level `trainedForest` variable; `train` replaces it, `predictProba`
reads it (and fails before any training).  The orchestrator
(`forestWorkerResult` in `page-client.tsx`) guards every `train` call:
no images, non-forest strategy, empty label map, or a labeled image
without an embedding all make it return early without touching the
worker. -/

/-- `tree.predictProba(features, className)`. -/
def treePredictProba : TreeNode → List ℚ → ℤ → ℚ
  | .leaf dist, _, c => (dist.lookup c).getD 0
  | .node f t l r, features, c =>
    if features.getD f 0 ≤ t then treePredictProba l features c
    else treePredictProba r features c

/-- `forest.predictProba(features, className)`: mean over the trees. -/
def forestPredictProba (trees : List TreeNode) (features : List ℚ)
    (c : ℤ) : ℚ :=
  (trees.map (fun t => treePredictProba t features c)).sum / trees.length

/-- The worker wire request `{trainingSet, predictions}`. -/
structure TrainRequest where
  trainingSet : List (List ℚ)
  predictions : List ℤ
deriving DecidableEq

/-- `rf.train` as the worker's `train` calls it: hyperparameters
`numTrees = 100`, `maxDepth = 20`, `minSamplesSplit = 2`, pairing
`trainingSet[i]` with `predictions[i]`.  The bootstrap sample of tree `i`
(`data.length` uniform draws with replacement) is modelled by the index
oracle `bag i`, the per-node feature shuffle by `sel`. -/
def workerTrain (sel : List DataPoint → ℕ → List ℕ) (bag : ℕ → List ℕ)
    (req : TrainRequest) : List TreeNode :=
  let data := (req.trainingSet.zip req.predictions).map
    (fun p => DataPoint.mk p.1 p.2)
  (List.range 100).map (fun i =>
    buildTree sel 20 2
      ((bag i).map (fun j => data.getD j (DataPoint.mk [] 0))) 0)

/-- The two sorting strategies of the page. -/
inductive SortMethod where
  | cosine
  | forest
deriving DecidableEq

/-- The worker's module-level `trainedForest` variable: absent until the
first `train` call. -/
structure WorkerState where
  trainedForest : Option (List TreeNode)
deriving DecidableEq

/-- The orchestrator's fetcher (`forestWorkerResult`): the train request
it would send, or `none` when one of its guards fires (no images,
similarity strategy active, empty label map, or some labeled image still
lacking an embedding). -/
def trainRequestOf (images : List ℕ) (method : SortMethod)
    (prefs : List (ℕ × Bool)) (emb : ℕ → Option (List ℚ)) :
    Option TrainRequest :=
  if images = [] then none
  else if method ≠ SortMethod.forest then none
  else if prefs = [] then none
  else
    let labeled := prefs.map (fun p => (p.1, p.2, emb p.1))
    if labeled.any (fun l => l.2.2.isNone) then none
    else some ⟨labeled.filterMap (fun l => l.2.2),
      labeled.map (fun l => if l.2.1 then 1 else 0)⟩

/-- One orchestrated training step: call the worker's `train` exactly
when the fetcher produced a request; `train` replaces `trainedForest`. -/
def forestStep (sel : List DataPoint → ℕ → List ℕ) (bag : ℕ → List ℕ)
    (st : WorkerState) (images : List ℕ) (method : SortMethod)
    (prefs : List (ℕ × Bool)) (emb : ℕ → Option (List ℚ)) : WorkerState :=
  match trainRequestOf images method prefs emb with
  | none => st
  | some req => ⟨some (workerTrain sel bag req)⟩

/-- The worker's `predictProba(features, c)`: fails (`none`) when no
forest has been trained yet. -/
def workerPredictProba (st : WorkerState) (features : List ℚ) (c : ℤ) :
    Option ℚ :=
  st.trainedForest.map (fun trees => forestPredictProba trees features c)

/-- C3: invoking forest training with an empty label set, or with labels
none of which has a known embedding, is a no-op: the worker's `train` is
never reached, no forest is built, and the previously trained forest (if
any) still answers every prediction exactly as before. -/
theorem forestStep_noop (sel : List DataPoint → ℕ → List ℕ)
    (bag : ℕ → List ℕ) (st : WorkerState) (images : List ℕ)
    (method : SortMethod) (prefs : List (ℕ × Bool))
    (emb : ℕ → Option (List ℚ))
    (h : prefs = [] ∨ ∀ p ∈ prefs, emb p.1 = none) :
    forestStep sel bag st images method prefs emb = st
    ∧ ∀ (features : List ℚ) (c : ℤ),
        workerPredictProba (forestStep sel bag st images method prefs emb)
          features c = workerPredictProba st features c := by
  have hreq : trainRequestOf images method prefs emb = none := by
    by_cases h1 : images = []
    · simp [trainRequestOf, h1]
    by_cases h2 : method ≠ SortMethod.forest
    · simp [trainRequestOf, h1, h2]
    by_cases h3 : prefs = []
    · simp [trainRequestOf, h1, h2, h3]
    rcases h with rfl | hall
    · exact absurd rfl h3
    have hany : (prefs.map (fun p => (p.1, p.2, emb p.1))).any
        (fun l => l.2.2.isNone) = true := by
      rcases prefs with _ | ⟨p0, rest⟩
      · exact absurd rfl h3
      · simp [hall p0 (by simp)]
    rw [trainRequestOf, if_neg h1, if_neg h2, if_neg h3]
    simp only [hany]
    rfl
  have hst : forestStep sel bag st images method prefs emb = st := by
    rw [forestStep, hreq]
  exact ⟨hst, fun features c => by rw [hst]⟩

/-- Witness for C3: an empty label map leaves a previously trained
one-leaf forest in place. -/
theorem forestStep_noop_witness :
    forestStep (fun _ _ => []) (fun _ => [])
        (WorkerState.mk (some [TreeNode.leaf [(1, 1)]])) [0]
        SortMethod.forest [] (fun _ => none)
      = WorkerState.mk (some [TreeNode.leaf [(1, 1)]])
    ∧ ∀ (features : List ℚ) (c : ℤ),
        workerPredictProba
          (forestStep (fun _ _ => []) (fun _ => [])
            (WorkerState.mk (some [TreeNode.leaf [(1, 1)]])) [0]
            SortMethod.forest [] (fun _ => none)) features c
        = workerPredictProba
            (WorkerState.mk (some [TreeNode.leaf [(1, 1)]])) features c :=
  forestStep_noop (fun _ _ => []) (fun _ => [])
    (WorkerState.mk (some [TreeNode.leaf [(1, 1)]])) [0]
    SortMethod.forest [] (fun _ => none) (Or.inl rfl)

/-! ### Embedding coordinator (`useEmbeddings` in `page-client.tsx`)

The effect computes one embedding per image with
`pMap(images, ..., {concurrency: 10})`.  The per-item mapper has no
`catch` (only a `finally` revoking the object URL), and `pMap`'s default
is `stopOnError: true`, so a provider rejection for any single image
rejects the whole batch; `setImagesWithEmbeddings` runs only after a
fully successful batch.  Restarts are guarded by an `AbortController`
created per effect run and aborted by the effect cleanup; the run checks
the signal before publishing.  Item concurrency only affects completion
order of individual items, which the single final map publication does
not observe, so a batch is modelled sequentially; the abort signal is
modelled by a generation counter, following the same protocol. -/

/-- The batch over the provider (`pMap` with the default
`stopOnError: true`): the first provider error rejects the whole batch,
a successful batch yields the per-image results in input order. -/
def computeBatch (provider : ℕ → Except Unit (List ℝ)) :
    List ℕ → Except Unit (List (ℕ × List ℝ))
  | [] => .ok []
  | i :: rest =>
    match provider i with
    | .error e => .error e
    | .ok emb =>
      match computeBatch provider rest with
      | .error e => .error e
      | .ok l => .ok ((i, emb) :: l)

/-- What `imagesWithEmbeddings` holds after the effect settles:
`setImagesWithEmbeddings` runs only on batch success, so a failed batch
leaves the previously published map in place. -/
def publishBatch (old : List (ℕ × List ℝ))
    (r : Except Unit (List (ℕ × List ℝ))) : List (ℕ × List ℝ) :=
  match r with
  | .error _ => old
  | .ok l => l

/-- A provider that fails on exactly image 1 and succeeds elsewhere. -/
def providerFailsOn1 : ℕ → Except Unit (List ℝ) :=
  fun i => if i = 1 then .error () else .ok [1]

/-- C2 counterexample (the spec's scenario: 3 images, provider fails on
the 2nd): images 0 and 2 embed successfully, yet the batch as a whole
fails and nothing is published — the published map (previously empty)
contains neither image 0 nor image 2, where the claim demands exactly
`{0, 2}`. -/
theorem computeBatch_counterexample :
    providerFailsOn1 0 = .ok [1]
    ∧ providerFailsOn1 2 = .ok [1]
    ∧ computeBatch providerFailsOn1 [0, 1, 2] = .error ()
    ∧ publishBatch [] (computeBatch providerFailsOn1 [0, 1, 2]) = [] :=
  ⟨rfl, rfl, rfl, rfl⟩

/-- C2 (amended): when the embedding provider fails (throws) for at least
one image of the batch, the whole batch computation fails: no result map
is produced, nothing is published, and the previously published embedding
map remains — the successfully embedded images of the failed batch are
not added. -/
theorem computeBatch_error_of_failure (provider : ℕ → Except Unit (List ℝ))
    (images : List ℕ) (old : List (ℕ × List ℝ))
    (h : ∃ i ∈ images, ∃ e, provider i = .error e) :
    computeBatch provider images = .error ()
    ∧ publishBatch old (computeBatch provider images) = old := by
  have hc : ∀ imgs : List ℕ, (∃ i ∈ imgs, ∃ e, provider i = .error e) →
      computeBatch provider imgs = .error () := by
    intro imgs
    induction imgs with
    | nil =>
      intro hex
      simp at hex
    | cons j rest ih =>
      intro hex
      obtain ⟨i, hi, e, he⟩ := hex
      rcases List.mem_cons.1 hi with rfl | hi
      · rw [computeBatch, he]
      · cases hp : provider j with
        | error e2 => rw [computeBatch, hp]
        | ok emb => rw [computeBatch, hp, ih ⟨i, hi, e, he⟩]
  have hc2 := hc images h
  exact ⟨hc2, by rw [hc2]; rfl⟩

/-- Witness for C2 (amended) at the concrete failing provider. -/
theorem computeBatch_error_of_failure_witness :
    computeBatch providerFailsOn1 [0, 1, 2] = .error ()
    ∧ publishBatch [(7, [])] (computeBatch providerFailsOn1 [0, 1, 2])
      = [(7, [])] :=
  computeBatch_error_of_failure providerFailsOn1 [0, 1, 2] [(7, [])]
    ⟨1, by simp, (), rfl⟩

/-- On a fully successful batch the result has exactly one entry per
image, in order. -/
theorem computeBatch_ok_keys (provider : ℕ → Except Unit (List ℝ)) :
    ∀ (images : List ℕ) (l : List (ℕ × List ℝ)),
      computeBatch provider images = .ok l →
        l.map (fun p => p.1) = images := by
  intro images
  induction images with
  | nil =>
    intro l h
    rw [computeBatch] at h
    injection h with h
    simp [← h]
  | cons i rest ih =>
    intro l h
    rw [computeBatch] at h
    cases hp : provider i with
    | error e =>
      rw [hp] at h
      cases h
    | ok emb =>
      rw [hp] at h
      cases hr : computeBatch provider rest with
      | error e =>
        rw [hr] at h
        cases h
      | ok l2 =>
        rw [hr] at h
        injection h with h
        rw [← h]
        simp [ih l2 hr]

/-- The coordinator's cancellation state: the generation of the current
effect run (each restart aborts the previous run's controller and makes a
fresh generation current) and the currently published embedding map. -/
structure CoordState where
  currentGen : ℕ
  published : List (ℕ × List ℝ)

/-- Restart the coordinator for a new image set: the previous effect's
cleanup aborts its controller; a fresh generation becomes current. -/
def restart (s : CoordState) : CoordState :=
  ⟨s.currentGen + 1, s.published⟩

/-- Completion of the run captured at generation `gen`: the run checks
its abort signal before `setImagesWithEmbeddings`, so a stale generation
publishes nothing; a failed batch also publishes nothing. -/
def finishRun (s : CoordState) (gen : ℕ)
    (provider : ℕ → Except Unit (List ℝ)) (images : List ℕ) : CoordState :=
  if gen = s.currentGen then
    match computeBatch provider images with
    | .error _ => s
    | .ok l => ⟨s.currentGen, l⟩
  else s

/-- C9: when the coordinator is restarted for image set B before the run
for image set A finished, the superseded run's results are never
published: in either completion order after the restart, the finally
published embedding map is exactly the successful result of the new run,
whose entries are keyed by exactly B's images. -/
theorem coordinator_discards_superseded (s0 : CoordState)
    (provider : ℕ → Except Unit (List ℝ)) (imagesA imagesB : List ℕ)
    (resB : List (ℕ × List ℝ))
    (hB : computeBatch provider imagesB = .ok resB) :
    (finishRun (finishRun (restart s0) s0.currentGen provider imagesA)
        (restart s0).currentGen provider imagesB).published = resB
    ∧ (finishRun (finishRun (restart s0) (restart s0).currentGen provider
        imagesB) s0.currentGen provider imagesA).published = resB
    ∧ resB.map (fun p => p.1) = imagesB := by
  have hne : s0.currentGen ≠ (restart s0).currentGen := by
    simp [restart]
  have h1 : finishRun (restart s0) s0.currentGen provider imagesA
      = restart s0 := by
    rw [finishRun, if_neg hne]
  have h2 : finishRun (restart s0) (restart s0).currentGen provider imagesB
      = ⟨(restart s0).currentGen, resB⟩ := by
    rw [finishRun, if_pos rfl, hB]
  have h3 : finishRun ⟨(restart s0).currentGen, resB⟩ s0.currentGen provider
      imagesA = ⟨(restart s0).currentGen, resB⟩ := by
    rw [finishRun, if_neg hne]
  refine ⟨?_, ?_, computeBatch_ok_keys provider imagesB resB hB⟩
  · rw [h1, h2]
  · rw [h2, h3]

/-- A provider that succeeds on every image. -/
def providerAllOk : ℕ → Except Unit (List ℝ) := fun _ => .ok []

/-- Witness for C9: run A over ten images superseded by run B over one
image; only B's single entry is published. -/
theorem coordinator_discards_superseded_witness :
    (finishRun (finishRun (restart (CoordState.mk 0 []))
        (CoordState.mk 0 []).currentGen providerAllOk
        [0, 1, 2, 3, 4, 5, 6, 7, 8, 9])
      (restart (CoordState.mk 0 [])).currentGen providerAllOk
        [10]).published = [(10, [])]
    ∧ (finishRun (finishRun (restart (CoordState.mk 0 []))
        (restart (CoordState.mk 0 [])).currentGen providerAllOk [10])
      (CoordState.mk 0 []).currentGen providerAllOk
        [0, 1, 2, 3, 4, 5, 6, 7, 8, 9]).published = [(10, [])]
    ∧ ([((10 : ℕ), ([] : List ℝ))].map (fun p => p.1)) = [10] :=
  coordinator_discards_superseded (CoordState.mk 0 []) providerAllOk
    [0, 1, 2, 3, 4, 5, 6, 7, 8, 9] [10] [(10, [])] rfl

/-! ### Similarity scorer and ranking orchestrator (`page-client.tsx`)

`cosineSimilarity` is `dot(a,b) / (sqrt(normA) * sqrt(normB))`, the loop
accumulating over the common indices (the function throws on unequal
lengths before the loop; no claim exercises that path, and all call sites
use embeddings of one model, hence of one dimension).
`imagesSorted` scores every image against the liked/disliked sets read
from the `imagePreference` map (modelled as an association list in
insertion order) and sorts with
`sortBy(list.reverse(), k1, k2, k3).reverse()` — lodash `sortBy` is a
stable ascending sort comparing the keys lexicographically with
`compareAscending`, under which `false < true` and every number precedes
`undefined`. -/

/-- `cosineSimilarity(vecA, vecB)`. -/
noncomputable def cosineSimilarity (vecA vecB : List ℝ) : ℝ :=
  ((vecA.zip vecB).map (fun p => p.1 * p.2)).sum
    / (Real.sqrt ((vecA.map (fun x => x * x)).sum)
      * Real.sqrt ((vecB.map (fun x => x * x)).sum))

/-- `likedImageEmbeddings`: the embeddings of the liked images, in label
insertion order, images without an embedding compacted away. -/
def likedEmbeddings (prefs : List (ℕ × Bool))
    (emb : ℕ → Option (List ℝ)) : List (List ℝ) :=
  (prefs.filter (fun p => p.2 == true)).filterMap (fun p => emb p.1)

/-- `dislikedImageEmbeddings`. -/
def dislikedEmbeddings (prefs : List (ℕ × Bool))
    (emb : ℕ → Option (List ℝ)) : List (List ℝ) :=
  (prefs.filter (fun p => p.2 == false)).filterMap (fun p => emb p.1)

/-- The similarity score of one image (the `score` computed inside
`imagesSorted`): `undefined` without an embedding, otherwise the liked
cosine `reduce` minus the disliked cosine `reduce`, each starting at 0. -/
noncomputable def imageScore (prefs : List (ℕ × Bool))
    (emb : ℕ → Option (List ℝ)) (file : ℕ) : Option ℝ :=
  match emb file with
  | none => none
  | some e => some
      ((likedEmbeddings prefs emb).foldl
        (fun acc l => acc + cosineSimilarity e l) 0
      - (dislikedEmbeddings prefs emb).foldl
        (fun acc d => acc + cosineSimilarity e d) 0)

theorem foldl_add_eq_sum {α : Type*} (f : α → ℝ) :
    ∀ (l : List α) (init : ℝ),
      l.foldl (fun acc x => acc + f x) init = init + (l.map f).sum
  | [], init => by simp
  | x :: t, init => by
    rw [List.foldl_cons, foldl_add_eq_sum f t, List.map_cons, List.sum_cons]
    ring

/-- C5: the similarity score is `undefined` exactly when the image has no
embedding; otherwise it equals the sum of cosine similarities against the
liked images that have embeddings minus the sum against the disliked ones
(only labeled images with embeddings contribute), and with no labels at
all the score of an embedded image is 0 (each empty set contributes zero
to its sum). -/
theorem imageScore_spec (prefs : List (ℕ × Bool))
    (emb : ℕ → Option (List ℝ)) (file : ℕ) :
    (imageScore prefs emb file = none ↔ emb file = none)
    ∧ imageScore prefs emb file = (emb file).map (fun e =>
        ((likedEmbeddings prefs emb).map (fun l => cosineSimilarity e l)).sum
        - ((dislikedEmbeddings prefs emb).map
            (fun d => cosineSimilarity e d)).sum)
    ∧ imageScore [] emb file = (emb file).map (fun _ => (0 : ℝ)) := by
  refine ⟨?_, ?_, ?_⟩
  · cases h : emb file with
    | none => simp [imageScore, h]
    | some e => simp [imageScore, h]
  · cases h : emb file with
    | none => simp [imageScore, h]
    | some e =>
      rw [imageScore, h]
      dsimp only
      rw [foldl_add_eq_sum (fun l => cosineSimilarity e l),
        foldl_add_eq_sum (fun d => cosineSimilarity e d)]
      simp
  · cases h : emb file with
    | none => simp [imageScore, h]
    | some e =>
      rw [imageScore, h]
      simp [likedEmbeddings, dislikedEmbeddings]

/-- One entry of `imagesWithRankings`:
`{file, score, scoreRf, scoreFinal}`. -/
structure Ranked where
  file : ℕ
  score : Option ℝ
  scoreRf : Option ℝ
  scoreFinal : Option ℝ

/-- Build one ranking record: `scoreRf` is the forest prediction map's
entry (absent when there is no prediction map or no entry), `scoreFinal`
picks the active strategy's score. -/
noncomputable def mkRanked (prefs : List (ℕ × Bool))
    (emb : ℕ → Option (List ℝ)) (forestPred : ℕ → Option ℝ)
    (method : SortMethod) (file : ℕ) : Ranked :=
  ⟨file, imageScore prefs emb file, forestPred file,
    if method = SortMethod.forest then forestPred file
    else imageScore prefs emb file⟩

/-- `imagesWithRankings = images.map(...)`. -/
noncomputable def imagesWithRankings (images : List ℕ)
    (prefs : List (ℕ × Bool)) (emb : ℕ → Option (List ℝ))
    (forestPred : ℕ → Option ℝ) (method : SortMethod) : List Ranked :=
  images.map (mkRanked prefs emb forestPred method)

/-- `imagePreference.get(file)`. -/
def labelOf (prefs : List (ℕ × Bool)) (file : ℕ) : Option Bool :=
  List.lookup file prefs

/-- First sort key: `imagePreference.get(i.file) === true`. -/
def key1 (prefs : List (ℕ × Bool)) (r : Ranked) : Bool :=
  decide (labelOf prefs r.file = some true)

/-- Second sort key: `!(imagePreference.get(i.file) === false)`. -/
def key2 (prefs : List (ℕ × Bool)) (r : Ranked) : Bool :=
  !decide (labelOf prefs r.file = some false)

/-- lodash `compareAscending` on two booleans: `false` sorts before
`true`. -/
def boolLT (a b : Bool) : Prop := a = false ∧ b = true

/-- lodash `compareAscending` on `number | undefined` sort keys: numbers
ascending, `undefined` after every number. -/
def optLE : Option ℝ → Option ℝ → Prop
  | _, none => True
  | none, some _ => False
  | some a, some b => a ≤ b

/-- The `sortBy(..., k1, k2, k3)` comparison (lodash `compareMultiple`):
lexicographic over the three keys; ties fall back to input order, i.e.
the sort is stable. -/
def rankedLE (prefs : List (ℕ × Bool)) (a b : Ranked) : Prop :=
  boolLT (key1 prefs a) (key1 prefs b)
  ∨ (key1 prefs a = key1 prefs b
    ∧ (boolLT (key2 prefs a) (key2 prefs b)
      ∨ (key2 prefs a = key2 prefs b ∧ optLE a.scoreFinal b.scoreFinal)))

noncomputable instance rankedLEDec (prefs : List (ℕ × Bool)) :
    DecidableRel (rankedLE prefs) :=
  fun _ _ => Classical.propDecidable _

/-- `imagesSorted`: rank every image, then
`sortBy(imagesWithRankings.reverse(), k1, k2, k3).reverse()`. -/
noncomputable def imagesSorted (images : List ℕ) (prefs : List (ℕ × Bool))
    (emb : ℕ → Option (List ℝ)) (forestPred : ℕ → Option ℝ)
    (method : SortMethod) : List Ranked :=
  (stableSort (rankedLE prefs)
    (imagesWithRankings images prefs emb forestPred method).reverse).reverse

theorem boolLT_or (a b : Bool) : boolLT a b ∨ a = b ∨ boolLT b a := by
  cases a <;> cases b <;> simp [boolLT]

theorem optLE_total : ∀ x y : Option ℝ, optLE x y ∨ optLE y x
  | none, none => Or.inl trivial
  | none, some _ => Or.inr trivial
  | some _, none => Or.inl trivial
  | some a, some b => by
    rcases le_total a b with h | h
    · exact Or.inl h
    · exact Or.inr h

theorem optLE_none_right : ∀ x : Option ℝ, optLE x none
  | none => trivial
  | some _ => trivial

theorem optLE_trans : ∀ x y z : Option ℝ, optLE x y → optLE y z → optLE x z
  | x, _, none, _, _ => optLE_none_right x
  | none, some _, _, h, _ => h.elim
  | some _, none, some _, _, h2 => h2.elim
  | some a, some b, some c, h1, h2 => le_trans (α := ℝ) h1 h2

theorem rankedLE_total (prefs : List (ℕ × Bool)) (a b : Ranked) :
    rankedLE prefs a b ∨ rankedLE prefs b a := by
  rcases boolLT_or (key1 prefs a) (key1 prefs b) with h | h | h
  · exact Or.inl (Or.inl h)
  · rcases boolLT_or (key2 prefs a) (key2 prefs b) with h2 | h2 | h2
    · exact Or.inl (Or.inr ⟨h, Or.inl h2⟩)
    · rcases optLE_total a.scoreFinal b.scoreFinal with h3 | h3
      · exact Or.inl (Or.inr ⟨h, Or.inr ⟨h2, h3⟩⟩)
      · exact Or.inr (Or.inr ⟨h.symm, Or.inr ⟨h2.symm, h3⟩⟩)
    · exact Or.inr (Or.inr ⟨h.symm, Or.inl h2⟩)
  · exact Or.inr (Or.inl h)

theorem rankedLE_trans (prefs : List (ℕ × Bool)) (a b c : Ranked) :
    rankedLE prefs a b → rankedLE prefs b c → rankedLE prefs a c := by
  intro hab hbc
  rcases hab with h1 | ⟨e1, h1⟩
  · rcases hbc with h2 | ⟨e2, h2⟩
    · exact absurd h1.2 (by rw [h2.1]; simp)
    · exact Or.inl ⟨h1.1, e2 ▸ h1.2⟩
  · rcases hbc with h2 | ⟨e2, h2⟩
    · exact Or.inl ⟨e1 ▸ h2.1, h2.2⟩
    · refine Or.inr ⟨e1.trans e2, ?_⟩
      rcases h1 with h1 | ⟨f1, h1⟩
      · rcases h2 with h2 | ⟨f2, h2⟩
        · exact absurd h1.2 (by rw [h2.1]; simp)
        · exact Or.inl ⟨h1.1, f2 ▸ h1.2⟩
      · rcases h2 with h2 | ⟨f2, h2⟩
        · exact Or.inl ⟨f1 ▸ h2.1, h2.2⟩
        · exact Or.inr ⟨f1.trans f2, optLE_trans _ _ _ h1 h2⟩

/-- The output of `imagesSorted` is pairwise ordered by the flipped
comparison (the double `reverse` turns the stable ascending sort into a
stable descending one). -/
theorem imagesSorted_pairwise (images : List ℕ) (prefs : List (ℕ × Bool))
    (emb : ℕ → Option (List ℝ)) (forestPred : ℕ → Option ℝ)
    (method : SortMethod) :
    (imagesSorted images prefs emb forestPred method).Pairwise
      (fun a b => rankedLE prefs b a) := by
  rw [imagesSorted, List.pairwise_reverse]
  exact pairwise_stableSort (rankedLE_total prefs) (rankedLE_trans prefs) _

/-- The rank of a label status: liked above unlabeled above disliked. -/
def statusRank : Option Bool → ℕ
  | some true => 2
  | none => 1
  | some false => 0

theorem label_cases (x : Option Bool) :
    x = none ∨ x = some true ∨ x = some false := by
  rcases x with _ | b
  · exact Or.inl rfl
  · cases b
    · exact Or.inr (Or.inr rfl)
    · exact Or.inr (Or.inl rfl)

theorem key1_eq_true_iff (prefs : List (ℕ × Bool)) (r : Ranked) :
    key1 prefs r = true ↔ labelOf prefs r.file = some true := by
  rw [key1]
  exact decide_eq_true_iff

theorem key2_eq_false_iff (prefs : List (ℕ × Bool)) (r : Ranked) :
    key2 prefs r = false ↔ labelOf prefs r.file = some false := by
  rw [key2]
  simp

theorem keys_eq_of_label_eq {prefs : List (ℕ × Bool)} {a b : Ranked}
    (h : labelOf prefs a.file = labelOf prefs b.file) :
    key1 prefs a = key1 prefs b ∧ key2 prefs a = key2 prefs b := by
  rw [key1, key1, key2, key2, h]
  exact ⟨rfl, rfl⟩

theorem statusRank_le_of_rankedLE {prefs : List (ℕ × Bool)} {a b : Ranked}
    (h : rankedLE prefs a b) :
    statusRank (labelOf prefs a.file) ≤ statusRank (labelOf prefs b.file) := by
  rcases h with h | ⟨e1, h⟩
  · have hb : labelOf prefs b.file = some true :=
      (key1_eq_true_iff prefs b).1 h.2
    rw [hb]
    rcases label_cases (labelOf prefs a.file) with ha | ha | ha <;>
      rw [ha] <;> simp [statusRank]
  · rcases h with h | ⟨e2, -⟩
    · have ha : labelOf prefs a.file = some false :=
        (key2_eq_false_iff prefs a).1 h.1
      rw [ha]
      simp [statusRank]
    · have hlab : labelOf prefs a.file = labelOf prefs b.file := by
        rcases label_cases (labelOf prefs a.file) with ha | ha | ha <;>
          rcases label_cases (labelOf prefs b.file) with hb | hb | hb <;>
            rw [ha, hb] <;>
              first
                | rfl
                | (exfalso
                   rw [key1, key1, ha, hb] at e1
                   rw [key2, key2, ha, hb] at e2
                   simp at e1 e2)
      rw [hlab]

/-- C4: the final ordering produced by `imagesSorted` places every liked
image before every unlabeled image and every unlabeled image before every
disliked image, and within one label status any two scored images appear
in descending order of the active strategy's score. -/
theorem imagesSorted_ordered (images : List ℕ) (prefs : List (ℕ × Bool))
    (emb : ℕ → Option (List ℝ)) (forestPred : ℕ → Option ℝ)
    (method : SortMethod) :
    (imagesSorted images prefs emb forestPred method).Pairwise
      (fun a b =>
        statusRank (labelOf prefs b.file) ≤ statusRank (labelOf prefs a.file)
        ∧ (labelOf prefs a.file = labelOf prefs b.file →
            ∀ x y : ℝ, a.scoreFinal = some x → b.scoreFinal = some y →
              y ≤ x)) := by
  refine (imagesSorted_pairwise images prefs emb forestPred method).imp ?_
  intro a b h
  refine ⟨statusRank_le_of_rankedLE h, ?_⟩
  intro hlab x y hx hy
  obtain ⟨hk1, hk2⟩ := keys_eq_of_label_eq hlab
  rcases h with h | ⟨-, h | ⟨-, h3⟩⟩
  · have h1t := h.2
    rw [hk1] at h1t
    simp [h.1] at h1t
  · have h2t := h.2
    rw [hk2] at h2t
    simp [h.1] at h2t
  · rw [hx, hy] at h3
    exact h3

/-- C1 (amended): in the final ordering, among images of equal label
status every image without a score is placed before (not after) every
image that has a score, and the images without a score keep their
original relative order among themselves. -/
theorem imagesSorted_unscored_first (images : List ℕ)
    (prefs : List (ℕ × Bool)) (emb : ℕ → Option (List ℝ))
    (forestPred : ℕ → Option ℝ) (method : SortMethod) :
    (imagesSorted images prefs emb forestPred method).Pairwise
      (fun a b => labelOf prefs a.file = labelOf prefs b.file →
        b.scoreFinal = none → a.scoreFinal = none)
    ∧ ∀ f g : ℕ, List.Sublist [f, g] images →
        labelOf prefs f = labelOf prefs g →
        (mkRanked prefs emb forestPred method f).scoreFinal = none →
        (mkRanked prefs emb forestPred method g).scoreFinal = none →
        List.Sublist [f, g]
          ((imagesSorted images prefs emb forestPred method).map
            (fun r => r.file)) := by
  constructor
  · refine (imagesSorted_pairwise images prefs emb forestPred method).imp ?_
    intro a b h hlab hbnone
    obtain ⟨hk1, hk2⟩ := keys_eq_of_label_eq hlab
    rcases h with h | ⟨-, h | ⟨-, h3⟩⟩
    · have h1t := h.2
      rw [hk1] at h1t
      simp [h.1] at h1t
    · have h2t := h.2
      rw [hk2] at h2t
      simp [h.1] at h2t
    · rw [hbnone] at h3
      cases ha : a.scoreFinal with
      | none => rfl
      | some v =>
        rw [ha] at h3
        exact h3.elim
  · intro f g hsub hlab hf hg
    have hrec : List.Sublist
        [mkRanked prefs emb forestPred method f,
         mkRanked prefs emb forestPred method g]
        (imagesWithRankings images prefs emb forestPred method) := by
      have hm := hsub.map (mkRanked prefs emb forestPred method)
      simpa [imagesWithRankings] using hm
    have hrev : List.Sublist
        [mkRanked prefs emb forestPred method g,
         mkRanked prefs emb forestPred method f]
        (imagesWithRankings images prefs emb forestPred method).reverse := by
      simpa using hrec.reverse
    have hle : rankedLE prefs (mkRanked prefs emb forestPred method g)
        (mkRanked prefs emb forestPred method f) := by
      obtain ⟨hk1, hk2⟩ := @keys_eq_of_label_eq prefs
        (mkRanked prefs emb forestPred method g)
        (mkRanked prefs emb forestPred method f) hlab.symm
      refine Or.inr ⟨hk1, Or.inr ⟨hk2, ?_⟩⟩
      rw [hf]
      exact optLE_none_right _
    have hsorted := stableSort_pair (rankedLE_total prefs)
      (rankedLE_trans prefs) _ hrev hle
    have hout : List.Sublist
        [mkRanked prefs emb forestPred method f,
         mkRanked prefs emb forestPred method g]
        (imagesSorted images prefs emb forestPred method) := by
      rw [imagesSorted]
      simpa using hsorted.reverse
    have hm := hout.map (fun r => r.file)
    simpa using hm

/-- Embeddings for the C1 counterexample: image 0 has a one-dimensional
embedding, image 1 has none. -/
noncomputable def embCE : ℕ → Option (List ℝ) :=
  fun i => if i = 0 then some [1] else none

/-- C1 counterexample: images `[0, 1]`, no labels (equal status), image 0
scored (its score is defined — with empty label sets it is 0), image 1
unscored; the final ordering is `[1, 0]`, i.e. the unscored image comes
first — before the scored image, not after it as the claim states. -/
theorem imagesSorted_counterexample :
    (imagesSorted [0, 1] [] embCE (fun _ => none) SortMethod.cosine).map
      (fun r => r.file) = [1, 0]
    ∧ (mkRanked [] embCE (fun _ => none) SortMethod.cosine 1).scoreFinal
        = none
    ∧ (mkRanked [] embCE (fun _ => none) SortMethod.cosine 0).scoreFinal
        ≠ none
    ∧ labelOf [] 0 = labelOf [] 1 := by
  have hr1 : (mkRanked [] embCE (fun _ => none)
      SortMethod.cosine 1).scoreFinal = none := by
    simp [mkRanked, imageScore, embCE]
  have hr0 : (mkRanked [] embCE (fun _ => none)
      SortMethod.cosine 0).scoreFinal ≠ none := by
    simp [mkRanked, imageScore, embCE]
  obtain ⟨v, hv⟩ := Option.ne_none_iff_exists'.1 hr0
  have hnot : ¬ rankedLE []
      (mkRanked [] embCE (fun _ => none) SortMethod.cosine 1)
      (mkRanked [] embCE (fun _ => none) SortMethod.cosine 0) := by
    intro h
    rcases h with h | ⟨-, h | ⟨-, h3⟩⟩
    · simp [key1, labelOf, boolLT] at h
    · simp [key2, labelOf, boolLT] at h
    · rw [hr1, hv] at h3
      exact h3.elim
  have hsort : imagesSorted [0, 1] [] embCE (fun _ => none)
      SortMethod.cosine
      = [mkRanked [] embCE (fun _ => none) SortMethod.cosine 1,
         mkRanked [] embCE (fun _ => none) SortMethod.cosine 0] := by
    rw [imagesSorted, imagesWithRankings]
    rw [show ([0, 1] : List ℕ).map
          (mkRanked [] embCE (fun _ => none) SortMethod.cosine)
        = [mkRanked [] embCE (fun _ => none) SortMethod.cosine 0,
           mkRanked [] embCE (fun _ => none) SortMethod.cosine 1] from rfl]
    rw [show [mkRanked [] embCE (fun _ => none) SortMethod.cosine 0,
           mkRanked [] embCE (fun _ => none) SortMethod.cosine 1].reverse
        = [mkRanked [] embCE (fun _ => none) SortMethod.cosine 1,
           mkRanked [] embCE (fun _ => none) SortMethod.cosine 0] from rfl]
    rw [stableSort, List.foldl_cons, List.foldl_cons, List.foldl_nil]
    simp only [insertEl]
    rw [if_neg hnot]
    rfl
  refine ⟨?_, hr1, hr0, rfl⟩
  rw [hsort]
  rfl
